import Mathlib

/-!
Verification development for the `unstacked` stacked-diff workflow engine.

The Rust sources are shallowly embedded: commit ids (`git2::Oid`) become
`Nat`, hash maps become association lists, the repository-level cherry-pick
(`git_helper::cherry_pick`) becomes an oracle function
`rp : Oid → Oid → Bool → Option Oid` (`none` models a conflict), and the
mutable state threaded through a build (`RuleBook`, `GitOpCache`, the
`refs/unstacked/rule/<name>` references) becomes an explicit `BuildSt`
record returned alongside every result.  Rust functions that mutate
`&mut self` and can fail return their final state next to the `Except`
result, mirroring the fact that mutations performed before an early
`return Err(..)` persist.  Recursion through the rule graph
(`RuleBook::build` ↔ `Series::build_partial`) is made total with a fuel
parameter; exhausted fuel models the infinite recursion a cyclic rule
graph would cause in the original program.
-/

namespace Unstacked

/-- Association-list lookup, modelling `HashMap::get`. -/
def alookup {α β : Type} [DecidableEq α] : List (α × β) → α → Option β
  | [], _ => none
  | (k, v) :: rest, a => if k = a then some v else alookup rest a

/-- Association-list insert/replace, modelling `HashMap::insert`. -/
def aset {α β : Type} [DecidableEq α] : List (α × β) → α → β → List (α × β)
  | [], a, b => [(a, b)]
  | (k, v) :: rest, a, b => if k = a then (a, b) :: rest else (k, v) :: aset rest a b

/-- Commit id (`git2::Oid`): an opaque identifier, embedded as `Nat`. -/
abbrev Oid := Nat

/-- `git_cache::Action`: the key of the operation cache (src/git_cache.rs). -/
inductive Action : Type
  | cherryPick (sign : Bool) (target : Oid) (cherry : Oid)
deriving DecidableEq

/-- `git_cache::GitOpCache`: a map from actions to resulting commit ids. -/
structure GitOpCache : Type where
  items : List (Action × Oid)
deriving DecidableEq

/-- `git_helper::CherryPickConflict` (the conflict list is dropped; only the
ids are observable through `Debug`/the series error). -/
structure CherryPickConflict : Type where
  target : Oid
  cherry : Oid
deriving DecidableEq

/-- `GitOpCache::cherry_pick` (src/git_cache.rs lines 33-62).  The oracle
`rp` stands for the repository-level `git_helper::cherry_pick`; `none`
models a conflict.  The returned `Bool` records whether the lookup was a
cache hit (the repository cherry-pick is invoked exactly when it is
`false`). -/
def GitOpCache.cherry_pick (rp : Oid → Oid → Bool → Option Oid) (c : GitOpCache)
    (target : Oid) (cherry : Oid) (sign : Bool) :
    (Except CherryPickConflict Oid) × GitOpCache × Bool :=
  match alookup c.items (Action.cherryPick sign target cherry) with
  | some id => (Except.ok id, c, true)
  | none =>
    match rp target cherry sign with
    | some id => (Except.ok id, ⟨aset c.items (Action.cherryPick sign target cherry) id⟩, false)
    | none => (Except.error ⟨target, cherry⟩, c, false)

/-- `series::Series` (src/series.rs). -/
structure Series : Type where
  patches : List Oid
  parent : String
deriving DecidableEq

/-- `series::Series::num_patches`. -/
def Series.num_patches (s : Series) : Nat := s.patches.length

/-- `series::Series::has_patches`. -/
def Series.has_patches (s : Series) : Bool := !s.patches.isEmpty

/-- `usize::checked_sub(1)`. -/
def checkedSub1 : Nat → Option Nat
  | 0 => none
  | n + 1 => some n

/-- `series::Series::is_top_patch`. -/
def Series.is_top_patch (s : Series) (index : Option Nat) : Bool :=
  index.isNone || decide (index = checkedSub1 s.num_patches)

/-- `anchor::Anchor` is just a fixed commit id; `rules::Rule` (src/rules.rs). -/
inductive Rule : Type
  | series (s : Series)
  | anchor (id : Oid)
deriving DecidableEq

/-- `rules::Rule::parent`. -/
def Rule.parentName : Rule → Option String
  | .series s => some s.parent
  | .anchor _ => none

/-- `rules::RuleBook` (src/rules.rs), a map from rule names to rules. -/
structure RuleBook : Type where
  rules : List (String × Rule)
deriving DecidableEq

/-- `RuleBook::rule`: lookup (the source wraps absence in a git `NotFound`
error; absence is modelled by `none`). -/
def RuleBook.rule (b : RuleBook) (name : String) : Option Rule :=
  alookup b.rules name

/-- `RuleBook::set_rule`: upsert. -/
def RuleBook.set_rule (b : RuleBook) (name : String) (r : Rule) : RuleBook :=
  ⟨aset b.rules name r⟩

/-- `RuleBook::find_rule_use`: names of rules that declare `name` as parent. -/
def RuleBook.find_rule_use (b : RuleBook) (name : String) : List String :=
  (b.rules.filter (fun kv => kv.2.parentName = some name)).map (fun kv => kv.1)

/-- Errors produced through `git2::Error` in the sources, distinguished by
their message/code. `noFuel` marks fuel exhaustion of the embedded
recursion (a cyclic rule graph recurses forever in the source). -/
inductive GitErr : Type
  | notFound (name : String)
  | notSeries (name : String)
  | cantTargetAnchor (name : String)
  | ambiguous (name : String)
  | noFuel
deriving DecidableEq

/-- `path::Path` (src/path.rs). -/
inductive Path : Type
  | seriesItem (name : String) (index : Option Nat)
deriving DecidableEq

/-- `rules::Error` (src/rules.rs lines 22-32). -/
inductive RulesError : Type
  | git (e : GitErr)
  | patchConflict (path : Path) (base : Oid) (patch : Oid)
deriving DecidableEq

/-- `series::Error` (src/series.rs lines 8-19). -/
inductive SeriesError : Type
  | git (e : GitErr)
  | rule (e : RulesError)
  | patchConflict (index : Nat) (base : Oid) (patch : Oid)
deriving DecidableEq

/-- `rules::Error::from_series_error` (src/rules.rs lines 34-49). -/
def from_series_error (name : String) : SeriesError → RulesError
  | .git g => .git g
  | .rule done => done
  | .patchConflict i b p => .patchConflict (.seriesItem name (some i)) b p

/-- The mutable state threaded through a build: the rule book, the operation
cache, the `refs/unstacked/rule/<name>` references, and an instrumentation
counter of cache misses (i.e. of repository-level cherry-pick invocations). -/
structure BuildSt : Type where
  rules : RuleBook
  cache : GitOpCache
  refs : List (String × Oid)
  misses : Nat
deriving DecidableEq

/-- `rules::update_rule_ref` (src/rules.rs lines 14-20). -/
def update_rule_ref (st : BuildSt) (name : String) (id : Oid) : BuildSt :=
  { st with refs := aset st.refs name id }

/-- The cherry-pick loop of `Series::build_partial` (src/series.rs lines
47-59): fold `cache.cherry_pick` over the first `count` patches, rewriting
each patch to its result in place.  Returns the result (or the
`PatchConflict` error), the patch list in its final state (the rewritten
prefix survives an abort, matching the `&mut self` mutation), and the
final build state. -/
def cherryLoop (rp : Oid → Oid → Bool → Option Oid) (idx : Nat) (patches : List Oid)
    (count : Nat) (accum : Oid) (st : BuildSt) :
    (Except SeriesError Oid) × List Oid × BuildSt :=
  match patches, count with
  | [], _ => (Except.ok accum, [], st)
  | ps, 0 => (Except.ok accum, ps, st)
  | p :: ps, k + 1 =>
    match GitOpCache.cherry_pick rp st.cache accum p false with
    | (.error conf, c', _) =>
      (Except.error (.patchConflict idx conf.target conf.cherry), p :: ps,
        { st with cache := c', misses := st.misses + 1 })
    | (.ok id, c', hit) =>
      match cherryLoop rp (idx + 1) ps k id
          { st with cache := c', misses := st.misses + (if hit then 0 else 1) } with
      | (res, ps', st'') => (res, id :: ps', st'')

/-- `Series::build_partial` (src/series.rs lines 40-61), parameterised by
the function `pb` used to build the parent rule (`rules.build`). -/
def buildSeriesPart (rp : Oid → Oid → Bool → Option Oid)
    (pb : BuildSt → String → (Except RulesError Oid) × BuildSt)
    (s : Series) (count : Nat) (st : BuildSt) :
    (Except SeriesError Oid) × Series × BuildSt :=
  match pb st s.parent with
  | (.error e, st') => (Except.error (.rule e), s, st')
  | (.ok a, st') =>
    match cherryLoop rp 0 s.patches count a st' with
    | (res, ps', st'') => (res, { s with patches := ps' }, st'')

/-- One unfolding of `RuleBook::build` (src/rules.rs lines 128-147): fetch a
clone of the rule, dispatch on the variant, re-insert the mutated series
only on success, then update the rule reference. -/
def buildStep (rp : Oid → Oid → Bool → Option Oid)
    (pb : BuildSt → String → (Except RulesError Oid) × BuildSt)
    (st : BuildSt) (name : String) : (Except RulesError Oid) × BuildSt :=
  match st.rules.rule name with
  | none => (Except.error (.git (.notFound name)), st)
  | some (.anchor id) => (Except.ok id, update_rule_ref st name id)
  | some (.series s) =>
    match buildSeriesPart rp pb s s.patches.length st with
    | (.ok id, s', st') =>
      (Except.ok id, update_rule_ref { st' with rules := st'.rules.set_rule name (.series s') } name id)
    | (.error e, _, st') => (Except.error (from_series_error name e), st')

/-- `RuleBook::build` with fuel bounding the recursion depth through the
rule graph. -/
def buildFuel (rp : Oid → Oid → Bool → Option Oid) :
    Nat → BuildSt → String → (Except RulesError Oid) × BuildSt
  | 0, st, _ => (Except.error (.git .noFuel), st)
  | f + 1, st, name => buildStep rp (buildFuel rp f) st name

/-- `Series::build_partial` with fuel for the parent build. -/
def Series.build_part (rp : Oid → Oid → Bool → Option Oid) (f : Nat) (s : Series)
    (count : Nat) (st : BuildSt) : (Except SeriesError Oid) × Series × BuildSt :=
  buildSeriesPart rp (buildFuel rp f) s count st

/-- `Series::build_at` (src/series.rs lines 63-71):
`index.map(|i| i + 1).unwrap_or(self.num_patches())` patches are applied. -/
def Series.build_at (rp : Oid → Oid → Bool → Option Oid) (f : Nat) (s : Series)
    (index : Option Nat) (st : BuildSt) : (Except SeriesError Oid) × Series × BuildSt :=
  Series.build_part rp f s (match index with | some i => i + 1 | none => s.num_patches) st

/-- `path::Side` (src/path.rs). -/
inductive Side : Type
  | first
  | last
deriving DecidableEq

/-- `RuleBook::series`: typed access failing when the rule is absent or an
anchor (src/rules.rs lines 104-114). -/
def RuleBook.seriesOf (b : RuleBook) (name : String) : Except GitErr Series :=
  match b.rule name with
  | none => .error (.notFound name)
  | some (.series s) => .ok s
  | some (.anchor _) => .error (.notSeries name)

/-- `Path::from_rule` (src/path.rs lines 17-38). -/
def Path.from_rule (rules : RuleBook) (name : String) (side : Side) : Except GitErr Path :=
  match rules.rule name with
  | none => .error (.notFound name)
  | some (.series s) =>
    .ok (.seriesItem name (match side with
      | .last => checkedSub1 s.num_patches
      | .first => if s.has_patches then some 0 else none))
  | some (.anchor _) => .error (.cantTargetAnchor name)

/-- `Path::next` (src/path.rs lines 46-93). -/
def Path.next (rules : RuleBook) : Path → Except GitErr Path
  | .seriesItem name none =>
    match rules.find_rule_use name with
    | [] => .ok (.seriesItem name none)
    | [d] => Path.from_rule rules d .first
    | _ => .error (.ambiguous name)
  | .seriesItem name (some i) =>
    match rules.seriesOf name with
    | .error e => .error e
    | .ok s =>
      if s.num_patches ≤ i + 1 then
        match rules.find_rule_use name with
        | [] => .ok (.seriesItem name (some i))
        | [d] => Path.from_rule rules d .first
        | _ => .error (.ambiguous name)
      else .ok (.seriesItem name (some (i + 1)))

/-- `Path::parent` (src/path.rs lines 95-119). -/
def Path.parentPath (rules : RuleBook) : Path → Except GitErr Path
  | .seriesItem name none =>
    match rules.seriesOf name with
    | .error e => .error e
    | .ok s =>
      if s.has_patches then .ok (.seriesItem name (checkedSub1 s.num_patches))
      else Path.from_rule rules s.parent .last
  | .seriesItem name (some 0) =>
    match rules.seriesOf name with
    | .error e => .error e
    | .ok s => Path.from_rule rules s.parent .last
  | .seriesItem name (some (i + 1)) => .ok (.seriesItem name (some i))

/-! ## Semantic side conditions for the build engine

`Coherent` says every cache entry agrees with the repository cherry-pick:
this models the fact that entries are only ever produced by successful
repository cherry-picks together with the determinism contract of §4.B
(the result depends only on `(base, cherry, sign)`).  `Fixpt` is the
content-addressing property of git: cherry-picking a commit that was
produced by a cherry-pick onto the same base recreates the same tree,
parent, author, committer and message, hence (content addressing) the
same commit id. -/

/-- Every cache entry agrees with the repository-level cherry-pick. -/
def Coherent (rp : Oid → Oid → Bool → Option Oid) (c : GitOpCache) : Prop :=
  ∀ t ch sg v, alookup c.items (Action.cherryPick sg t ch) = some v → rp t ch sg = some v

/-- Cherry-picking an already-derived commit onto its base reproduces it. -/
def Fixpt (rp : Oid → Oid → Bool → Option Oid) : Prop :=
  ∀ t ch sg v, rp t ch sg = some v → rp t v sg = some v

/-- `RW rp a ps qs`: starting from base `a`, the successive repository
cherry-picks of `ps` rewrite them to `qs` (the accumulated base after step
`i` being `qs[i]`). -/
inductive RW (rp : Oid → Oid → Bool → Option Oid) : Oid → List Oid → List Oid → Prop
  | nil (a : Oid) : RW rp a [] []
  | cons {a p q : Oid} {ps qs : List Oid} :
      rp a p false = some q → RW rp q ps qs → RW rp a (p :: ps) (q :: qs)

/-- The dependency chain of a rule: the rule itself, its parent, and so on
until an anchor, when that happens within the given fuel. -/
def ruleChain (b : RuleBook) : Nat → String → Option (List String)
  | 0, _ => none
  | f + 1, name =>
    match b.rule name with
    | some (.anchor _) => some [name]
    | some (.series s) => (ruleChain b f s.parent).map (fun l => name :: l)
    | none => none

/-! ## Concrete fixtures

A total cherry-pick oracle with the fixpoint property (`rpW`): results of
a pick are tagged by being `≥ 1000`, and picking a tagged commit returns
it unchanged, mimicking content addressing.  `rpC` is the same oracle
except that the patch `999` always conflicts. -/

/-- A conflict-free cherry-pick oracle with the content-addressing
fixpoint property. -/
def rpW : Oid → Oid → Bool → Option Oid :=
  fun t ch _ => some (if 1000 ≤ ch then ch else t * 1000 + ch)

/-- Like `rpW`, but the patch commit `999` conflicts on every base. -/
def rpC : Oid → Oid → Bool → Option Oid :=
  fun t ch _ => if ch = 999 then none else some (if 1000 ≤ ch then ch else t * 1000 + ch)

/-- Rule book: anchor `base` at commit 100, series `feat` with patches
`[1, 2]` on top of it. -/
def bookW : RuleBook := ⟨[("base", .anchor 100), ("feat", .series ⟨[1, 2], "base"⟩)]⟩

/-- Initial build state over `bookW`: empty cache, no refs. -/
def stW : BuildSt := ⟨bookW, ⟨[]⟩, [], 0⟩

/-- Rule book whose series `feat` has the conflicting patch `999` in second
position. -/
def bookC : RuleBook := ⟨[("base", .anchor 100), ("feat", .series ⟨[1, 999], "base"⟩)]⟩

/-- Initial build state over `bookC`. -/
def stC : BuildSt := ⟨bookC, ⟨[]⟩, [], 0⟩

/-- The state after the first successful build of `feat` over `bookW`:
both patches rewritten, two cache entries, both rule refs set, two
repository cherry-picks performed. -/
def stW1 : BuildSt :=
  ⟨⟨[("base", .anchor 100), ("feat", .series ⟨[100001, 100001002], "base"⟩)]⟩,
   ⟨[(.cherryPick false 100 1, 100001), (.cherryPick false 100001 2, 100001002)]⟩,
   [("base", 100), ("feat", 100001002)], 2⟩

/-- The state after building the anchor `base` over `bookC`. -/
def stpC : BuildSt := ⟨bookC, ⟨[]⟩, [("base", 100)], 0⟩

/-- The state after the conflicting cherry-pick loop over `bookC` (first
pick succeeded and was cached, second conflicted; two repository picks). -/
def stlC : BuildSt := ⟨bookC, ⟨[(.cherryPick false 100 1, 100001)]⟩, [("base", 100)], 2⟩

/-- The state after the partial loop over `bookC` stopping before the
conflicting patch. -/
def stmC : BuildSt := ⟨bookC, ⟨[(.cherryPick false 100 1, 100001)]⟩, [("base", 100)], 1⟩

/-- The state after building the anchor `base` over `bookW`. -/
def stpW : BuildSt := ⟨bookW, ⟨[]⟩, [("base", 100)], 0⟩

/-! ## The KV store (src/db.rs)

Git objects are content-addressed, so a tree oid determines a tree value;
the embedding therefore manipulates object values directly.  A blob holds
its byte content (a `String`); a tree holds a name-indexed entry list. -/

/-- A git object as stored by the KV store: a blob or a tree. -/
inductive GitObj : Type
  | blob (data : String)
  | tree (entries : List (String × GitObj))

/-- `git2::TreeBuilder::insert`: replace the entry named `k`, or add it. -/
def treeInsert : List (String × GitObj) → String → GitObj → List (String × GitObj) :=
  fun es k v => aset es k v

/-- The entries of the current position when it is a tree
(`repo.find_tree(tree_oid).ok()`); a blob or a missing entry gives a fresh
tree builder, i.e. no entries. -/
def entriesOf : Option GitObj → List (String × GitObj)
  | some (.tree es) => es
  | _ => []

/-- The current child entry named `k`
(`tree.get_name(key).map(|entry| entry.id())`). -/
def childOf (parent : Option GitObj) (k : String) : Option GitObj :=
  alookup (entriesOf parent) k

/-- `db::tree_modify` (src/db.rs lines 9-49), specialised as in `put_oid`
to a closure ignoring the previous entry.  At a path segment, the current
entry is reused as a tree when it is one (`find_tree(..).ok()`); a blob or
a missing entry yields a fresh tree builder.  An empty path returns the
new leaf itself. -/
def tree_modify (leaf : GitObj) : Option GitObj → List String → GitObj
  | _, [] => leaf
  | parent, k :: rest =>
    .tree (treeInsert (entriesOf parent) k (tree_modify leaf (childOf parent k) rest))

/-- Errors of the KV store (`state::Error` as observed through `db.rs`). -/
inductive KvErr : Type
  | notFound
  | decodeError
  | invalidPut
deriving DecidableEq

/-- `db::tree_find` (src/db.rs lines 51-67): walk the path; a missing entry
or a blob in an interior position fails (the source surfaces both as git
lookup errors). -/
def tree_find : GitObj → List String → Except KvErr GitObj
  | obj, [] => .ok obj
  | .blob _, _ :: _ => .error .notFound
  | .tree es, k :: rest =>
    match alookup es k with
    | none => .error .notFound
    | some child => tree_find child rest

/-- A created commit: message, tree, parents (`Repo::commit` arguments that
the KV store determines; author/committer come from the repository
signature and are outside this model). -/
structure CommitData : Type where
  message : String
  tree : GitObj
  parents : List Oid

/-- The repository as seen by the KV store: the object database (commits
created so far, addressed by freshly allocated ids) and the references. -/
structure RepoSt : Type where
  commits : List (Oid × CommitData)
  refs : List (String × Oid)
  fresh : Oid

/-- `Repo::commit`: append a commit object, returning its id. -/
def RepoSt.commit (r : RepoSt) (d : CommitData) : Oid × RepoSt :=
  (r.fresh, { r with commits := (r.fresh, d) :: r.commits, fresh := r.fresh + 1 })

/-- `Repo::reference(name, oid, force=true, ..)`. -/
def RepoSt.setRef (r : RepoSt) (name : String) (id : Oid) : RepoSt :=
  { r with refs := aset r.refs name id }

/-- `db::Store` (src/db.rs lines 69-73): the in-memory KV tree plus the
previously written store commit, if any. -/
structure Store : Type where
  parent : Option Oid
  tree : GitObj

/-- `db::UNSTACKED_STORE_PATH` (src/db.rs line 75). -/
def UNSTACKED_STORE_PATH : String := "unstacked/store"

/-- `Store::put_oid` (src/db.rs lines 161-181): rebuild the tree bottom-up
with the blob at `path`; reject results that are not trees (which happens
exactly for the empty path). -/
def Store.put_oid (st : Store) (path : List String) (data : String) : Except KvErr Store :=
  match tree_modify (.blob data) (some st.tree) path with
  | .tree es => .ok { st with tree := .tree es }
  | .blob _ => .error .invalidPut

/-- `Store::put` (src/db.rs lines 183-191): serialise, then `put_oid`.  The
serialiser `encode` stands for `serde_json::ser::to_vec_pretty`. -/
def Store.put {α : Type} (encode : α → String) (st : Store) (path : List String)
    (value : α) : Except KvErr Store :=
  Store.put_oid st path (encode value)

/-- `Store::get_blob` (src/db.rs lines 142-150): walk to the entry and
require a blob. -/
def Store.get_blob (st : Store) (path : List String) : Except KvErr String :=
  match tree_find st.tree path with
  | .error e => .error e
  | .ok (.blob d) => .ok d
  | .ok (.tree _) => .error .notFound

/-- `Store::get` (src/db.rs lines 152-159): read the blob and deserialise.
The deserialiser `decode` stands for `serde_json::de::from_slice`. -/
def Store.get {α : Type} (decode : String → Option α) (st : Store) (path : List String) :
    Except KvErr α :=
  match st.get_blob path with
  | .error e => .error e
  | .ok d =>
    match decode d with
    | none => .error .decodeError
    | some v => .ok v

/-- `Store::write` (src/db.rs lines 117-140): commit the current tree with
message "Update Unstacked Store" and the previous store commit as sole
parent (none for the first write), then force-update the store reference
and remember the new commit. -/
def Store.write (st : Store) (r : RepoSt) : Store × RepoSt :=
  let d : CommitData :=
    ⟨"Update Unstacked Store", st.tree, match st.parent with | some p => [p] | none => []⟩
  let idr := RepoSt.commit r d
  let r2 := RepoSt.setRef idr.2 UNSTACKED_STORE_PATH idr.1
  ({ st with parent := some idr.1 }, r2)

/-! ## The worktree reconciler (src/repo.rs, src/git_helper.rs)

The working copy is modelled by the commit HEAD points at, the tree held
by the index, and the working directory contents as a tree.  Trees and
commits are opaque ids here; `treeOf` maps a commit to its tree,
`m3 base ours theirs` is `Repository::merge_trees` (`none` = conflicts),
and `ap index workdir` captures the unstaged changes: it applies
`diff_tree_to_workdir(index)` to `index` (`none` = conflicts). -/

/-- The observable state of the working copy. -/
structure WtState : Type where
  head : Oid
  index : Oid
  workdir : Oid
deriving DecidableEq

/-- `repo::Error` restricted to the reconciliation outcomes. -/
inductive RepoErr : Type
  | indexConflicts
  | workingDirConflicts
deriving DecidableEq

/-- `Repo::goto` (src/repo.rs lines 230-271).  The state is returned next
to the result; the source performs no repository mutation before the hard
reset, so every failing branch returns the input state. -/
def Repo.goto (treeOf : Oid → Oid) (m3 : Oid → Oid → Oid → Option Oid)
    (ap : Oid → Oid → Option Oid) (st : WtState) (commit : Oid) :
    (Except RepoErr Unit) × WtState :=
  let head_tree := treeOf st.head
  let target_tree := treeOf commit
  let current_index_tree := st.index
  match m3 head_tree current_index_tree target_tree with
  | none => (Except.error .indexConflicts, st)
  | some new_index_tree =>
    match ap new_index_tree st.workdir with
    | none => (Except.error .workingDirConflicts, st)
    | some workdir_tree =>
      match m3 head_tree workdir_tree target_tree with
      | none => (Except.error .workingDirConflicts, st)
      | some new_workdir_tree =>
        (Except.ok (), { head := commit, index := new_index_tree, workdir := new_workdir_tree })

/-- `git_helper::capture_tree` (src/git_helper.rs lines 300-315): the index
tree, unless the index matches HEAD's tree and the index was not requested,
in which case the working directory (unstaged changes applied to the index
tree). -/
def capture_tree (treeOf : Oid → Oid) (ap : Oid → Oid → Option Oid)
    (st : WtState) (use_index : Bool) : Except RepoErr Oid :=
  let index_tree_id := st.index
  if index_tree_id = treeOf st.head && !use_index then
    match ap index_tree_id st.workdir with
    | none => .error .workingDirConflicts
    | some t => .ok t
  else .ok index_tree_id

/-! ## Association-list lemmas -/

theorem alookup_aset_self {α β : Type} [DecidableEq α] (l : List (α × β)) (a : α) (b : β) :
    alookup (aset l a b) a = some b := by
  induction l with
  | nil => simp [alookup, aset]
  | cons kv rest ih =>
    by_cases h : kv.1 = a
    · simp [alookup, aset, h]
    · simp [alookup, aset, h, ih]

theorem alookup_aset_ne {α β : Type} [DecidableEq α] (l : List (α × β)) (a a' : α) (b : β)
    (h : a' ≠ a) : alookup (aset l a b) a' = alookup l a' := by
  induction l with
  | nil =>
    simp only [aset, alookup]
    rw [if_neg (fun hh => h hh.symm)]
  | cons kv rest ih =>
    obtain ⟨k, v⟩ := kv
    by_cases hk : k = a
    · subst hk
      simp only [aset, if_pos rfl, alookup]
      rw [if_neg (fun hh => h hh.symm), if_neg (fun hh => h hh.symm)]
    · simp only [aset, if_neg hk, alookup]
      by_cases hk' : k = a'
      · rw [if_pos hk', if_pos hk']
      · rw [if_neg hk', if_neg hk', ih]

theorem aset_self {α β : Type} [DecidableEq α] (l : List (α × β)) (a : α) (b : β)
    (h : alookup l a = some b) : aset l a b = l := by
  induction l with
  | nil => simp [alookup] at h
  | cons kv rest ih =>
    by_cases hk : kv.1 = a
    · unfold alookup at h
      rw [if_pos hk] at h
      cases h
      cases kv
      simp only at hk
      subst hk
      simp [aset]
    · unfold alookup at h
      rw [if_neg hk] at h
      simp [aset, hk, ih h]

theorem alookup_mem {α β : Type} [DecidableEq α] (l : List (α × β)) (a : α) (v : β)
    (h : alookup l a = some v) : (a, v) ∈ l := by
  induction l with
  | nil => simp [alookup] at h
  | cons kv rest ih =>
    by_cases hk : kv.1 = a
    · unfold alookup at h
      rw [if_pos hk] at h
      cases h
      cases kv
      simp only at hk
      subst hk
      simp
    · unfold alookup at h
      rw [if_neg hk] at h
      exact List.mem_cons_of_mem _ (ih h)

theorem mem_alookup {α β : Type} [DecidableEq α] (l : List (α × β)) (a : α) (v : β)
    (hnd : (l.map Prod.fst).Nodup) (h : (a, v) ∈ l) : alookup l a = some v := by
  induction l with
  | nil => simp at h
  | cons kv rest ih =>
    rcases List.mem_cons.mp h with h1 | h1
    · subst h1
      simp [alookup]
    · have hk : kv.1 ≠ a := by
        intro hh
        have : a ∈ rest.map Prod.fst := List.mem_map.mpr ⟨(a, v), h1, rfl⟩
        simp only [List.map_cons, List.nodup_cons] at hnd
        exact hnd.1 (hh ▸ this)
      unfold alookup
      rw [if_neg hk]
      exact ih (by simp only [List.map_cons, List.nodup_cons] at hnd; exact hnd.2) h1

/-! ## C5: the operation cache -/

/-- C5: `GitOpCache::cherry_pick(base, cherry, sign)`: on a cache hit the
stored Oid is returned with the cache unchanged and no repository
cherry-pick performed (third component `true`); on a miss the repository
cherry-pick is performed (third component `false`) and, on success, its
result is inserted into the map and returned, while on conflict the
conflict error carrying base and cherry is returned and the cache map is
unchanged. -/
theorem c5_cache_cherry_pick (rp : Oid → Oid → Bool → Option Oid) (c : GitOpCache)
    (t ch : Oid) (sg : Bool) :
    (∀ v, alookup c.items (Action.cherryPick sg t ch) = some v →
      GitOpCache.cherry_pick rp c t ch sg = (Except.ok v, c, true)) ∧
    (alookup c.items (Action.cherryPick sg t ch) = none →
      (∀ v, rp t ch sg = some v →
        GitOpCache.cherry_pick rp c t ch sg =
          (Except.ok v, ⟨aset c.items (Action.cherryPick sg t ch) v⟩, false)) ∧
      (rp t ch sg = none →
        GitOpCache.cherry_pick rp c t ch sg = (Except.error ⟨t, ch⟩, c, false))) := by
  refine ⟨fun v hv => ?_, fun hn => ⟨fun v hv => ?_, fun hn2 => ?_⟩⟩
  · simp [GitOpCache.cherry_pick, hv]
  · simp [GitOpCache.cherry_pick, hn, hv]
  · simp [GitOpCache.cherry_pick, hn, hn2]

/-- Witness for C5: a cache holding one entry exercises the hit branch, the
miss-success branch, and the miss-conflict branch at concrete inputs. -/
theorem c5_cache_cherry_pick_witness :
    GitOpCache.cherry_pick rpW ⟨[(Action.cherryPick false 5 6, 77)]⟩ 5 6 false =
      (Except.ok 77, ⟨[(Action.cherryPick false 5 6, 77)]⟩, true) ∧
    GitOpCache.cherry_pick rpW ⟨[(Action.cherryPick false 5 6, 77)]⟩ 5 8 false =
      (Except.ok 5008,
        ⟨[(Action.cherryPick false 5 6, 77), (Action.cherryPick false 5 8, 5008)]⟩, false) ∧
    GitOpCache.cherry_pick rpC ⟨[(Action.cherryPick false 5 6, 77)]⟩ 5 999 false =
      (Except.error ⟨5, 999⟩, ⟨[(Action.cherryPick false 5 6, 77)]⟩, false) := by
  refine ⟨(c5_cache_cherry_pick rpW _ 5 6 false).1 77 (by decide), ?_, ?_⟩
  · exact ((c5_cache_cherry_pick rpW _ 5 8 false).2 (by decide)).1 5008 (by decide)
  · exact ((c5_cache_cherry_pick rpC _ 5 999 false).2 (by decide)).2 (by decide)

/-! ## KV store lemmas and C6, C9 -/

theorem tree_find_tree_modify (d : String) (path : List String) (parent : Option GitObj)
    (h : path ≠ []) :
    tree_find (tree_modify (.blob d) parent path) path = .ok (.blob d) := by
  induction path generalizing parent with
  | nil => exact absurd rfl h
  | cons k rest ih =>
    rw [tree_modify]
    simp only [treeInsert, tree_find, alookup_aset_self]
    cases rest with
    | nil => simp [tree_modify, tree_find]
    | cons k2 rest2 => exact ih _ (by simp)

/-- C6: immediately after `kv.put(path, v)` succeeds, `kv.get(path)`
returns `v` (for any serialiser/deserialiser pair that round-trips on
`v`); in particular, after two puts to the same path the most recent value
is read back. -/
theorem c6_kv_put_get {α : Type} (encode : α → String) (decode : String → Option α)
    (st : Store) (path : List String) (v : α) (st' : Store)
    (hv : decode (encode v) = some v)
    (hput : Store.put encode st path v = .ok st') :
    Store.get decode st' path = .ok v ∧
    (∀ (w : α) (st2 st3 : Store), decode (encode w) = some w →
      Store.put encode st2 path v = .ok st3 → ∀ st4,
      Store.put encode st3 path w = .ok st4 →
      Store.get decode st4 path = .ok w) := by
  have key : ∀ (u : α) (stA stB : Store), decode (encode u) = some u →
      Store.put encode stA path u = .ok stB → Store.get decode stB path = .ok u := by
    intro u stA stB hu hputu
    unfold Store.put Store.put_oid at hputu
    cases hpath : path with
    | nil =>
      subst hpath
      simp only [tree_modify] at hputu
      exact absurd hputu (by simp)
    | cons k rest =>
      subst hpath
      revert hputu
      cases hmod : tree_modify (.blob (encode u)) (some stA.tree) (k :: rest) with
      | blob dd =>
        intro hputu
        exact absurd hputu (by simp)
      | tree es =>
        intro hputu
        simp only at hputu
        cases hputu
        have hfind := tree_find_tree_modify (encode u) (k :: rest) (some stA.tree) (by simp)
        rw [hmod] at hfind
        simp only [Store.get, Store.get_blob, hfind, hu]
  exact ⟨key v st st' hv hput, fun w st2 st3 hw _h3 st4 h4 => key w st3 st4 hw h4⟩

/-- Witness for C6: putting `"1"` at `["x", "y"]` into an empty store and
reading it back, with the identity codec. -/
theorem c6_kv_put_get_witness :
    Store.get (fun s => some s) ⟨none, .tree [("x", .tree [("y", .blob "1")])]⟩ ["x", "y"] =
      Except.ok "1" := by
  exact (c6_kv_put_get (fun s => s) (fun s => some s) ⟨none, .tree []⟩ ["x", "y"] "1"
    ⟨none, .tree [("x", .tree [("y", .blob "1")])]⟩ rfl rfl).1

/-- Counterexample for C9: writing a store creates the commit with message
"Update Unstacked Store" (not "Update KV Store") and updates the reference
named "unstacked/store"; no reference named "refs/unstacked/store" is
created. -/
theorem c9_store_write_counterexample :
    ((Store.write ⟨none, .tree []⟩ ⟨[], [], 0⟩).2.commits.map (fun kv => kv.2.message) =
      ["Update Unstacked Store"]) ∧
    ¬ ("Update Unstacked Store" = "Update KV Store") ∧
    alookup (Store.write ⟨none, .tree []⟩ ⟨[], [], 0⟩).2.refs "refs/unstacked/store" = none ∧
    alookup (Store.write ⟨none, .tree []⟩ ⟨[], [], 0⟩).2.refs "unstacked/store" = some 0 := by
  refine ⟨rfl, by decide, ?_, ?_⟩
  · simp [Store.write, RepoSt.commit, RepoSt.setRef, UNSTACKED_STORE_PATH, alookup, aset]
  · simp [Store.write, RepoSt.commit, RepoSt.setRef, UNSTACKED_STORE_PATH, alookup, aset]

/-- C9 (amended): `Store::write` creates a commit whose tree is the current
in-memory KV tree, whose message is "Update Unstacked Store", whose sole
parent is the previously written store commit when one exists (no parent
otherwise), and force-updates the reference "unstacked/store" (note: the
source constant lacks the "refs/" prefix used by every other unstacked
reference) to the new commit, which the store then remembers as its
parent. -/
theorem c9_store_write_amended (st : Store) (r : RepoSt) :
    alookup (Store.write st r).2.commits r.fresh =
      some ⟨"Update Unstacked Store", st.tree, st.parent.toList⟩ ∧
    alookup (Store.write st r).2.refs "unstacked/store" = some r.fresh ∧
    (Store.write st r).1.parent = some r.fresh ∧
    (Store.write st r).1.tree = st.tree := by
  refine ⟨?_, ?_, rfl, rfl⟩
  · cases hp : st.parent with
    | none => simp [Store.write, RepoSt.commit, RepoSt.setRef, hp, alookup]
    | some p => simp [Store.write, RepoSt.commit, RepoSt.setRef, hp, alookup]
  · simp [Store.write, RepoSt.commit, RepoSt.setRef, UNSTACKED_STORE_PATH, alookup_aset_self]

/-! ## C4: worktree reconciliation, C8: capture_tree -/

/-- C4: for a worktree-reconciling checkout (`Repo::goto`) to a target
commit: if the index three-way merge conflicts the operation fails with
`IndexConflicts` and the working-copy state (in particular HEAD) is
unchanged; if the working-directory merge (or the capture of unstaged
changes) conflicts it fails with `WorkingDirConflicts` and the state is
unchanged; if both merges succeed, HEAD ends at the target, the index
equals the merged index tree and the working directory equals the merged
workdir tree. -/
theorem c4_goto_reconciler (treeOf : Oid → Oid) (m3 : Oid → Oid → Oid → Option Oid)
    (ap : Oid → Oid → Option Oid) (st : WtState) (c : Oid) :
    (m3 (treeOf st.head) st.index (treeOf c) = none →
      Repo.goto treeOf m3 ap st c = (Except.error .indexConflicts, st)) ∧
    (∀ nit, m3 (treeOf st.head) st.index (treeOf c) = some nit →
      (ap nit st.workdir = none →
        Repo.goto treeOf m3 ap st c = (Except.error .workingDirConflicts, st)) ∧
      (∀ wt, ap nit st.workdir = some wt →
        (m3 (treeOf st.head) wt (treeOf c) = none →
          Repo.goto treeOf m3 ap st c = (Except.error .workingDirConflicts, st)) ∧
        (∀ nwt, m3 (treeOf st.head) wt (treeOf c) = some nwt →
          Repo.goto treeOf m3 ap st c = (Except.ok (), ⟨c, nit, nwt⟩)))) := by
  refine ⟨fun h1 => ?_, fun nit h1 => ⟨fun h2 => ?_, fun wt h2 => ⟨fun h3 => ?_, fun nwt h3 => ?_⟩⟩⟩
  · simp [Repo.goto, h1]
  · simp [Repo.goto, h1, h2]
  · simp [Repo.goto, h1, h2, h3]
  · simp [Repo.goto, h1, h2, h3]

/-- Witness for C4: with concrete merge oracles, a clean move ends with
HEAD at the target and the merged trees installed, and a conflicting index
merge leaves the state untouched. -/
theorem c4_goto_reconciler_witness :
    Repo.goto (fun t => t + 50) (fun b o t => if b = 0 then none else some (o + t))
      (fun i w => some (i + w)) ⟨1, 2, 3⟩ 4 = (Except.ok (), ⟨4, 56, 113⟩) ∧
    Repo.goto (fun t => t) (fun _ _ _ => none) (fun i w => some (i + w)) ⟨1, 2, 3⟩ 4 =
      (Except.error .indexConflicts, ⟨1, 2, 3⟩) := by
  constructor
  · exact ((((c4_goto_reconciler (fun t => t + 50)
      (fun b o t => if b = 0 then none else some (o + t)) (fun i w => some (i + w))
      ⟨1, 2, 3⟩ 4).2 56 (by decide)).2 59 (by decide)).2 113 (by decide))
  · exact (c4_goto_reconciler (fun t => t) (fun _ _ _ => none) (fun i w => some (i + w))
      ⟨1, 2, 3⟩ 4).1 rfl

/-- Counterexample for C8: with `use_index = false` and an index tree that
differs from HEAD's tree, `capture_tree` captures the index tree, not the
working-directory tree (here the working-directory tree would be 102). -/
theorem c8_capture_tree_counterexample :
    capture_tree (fun t => t) (fun i _ => some (i + 100)) ⟨1, 2, 3⟩ false = Except.ok 2 ∧
    (fun (i : Oid) (_ : Oid) => some (i + 100) : Oid → Oid → Option Oid) 2 3 = some 102 ∧
    (2 : Oid) ≠ 102 := by
  exact ⟨rfl, rfl, by decide⟩

/-- C8 (amended): the tree of user changes captured by `capture_tree` is
the index tree when `use_index` is true, and also whenever the index tree
differs from HEAD's tree; only when `use_index` is false and the index
tree equals HEAD's tree is the working-directory tree (the index tree with
unstaged changes applied) captured. -/
theorem c8_capture_tree_amended (treeOf : Oid → Oid) (ap : Oid → Oid → Option Oid)
    (st : WtState) (use_index : Bool) :
    (use_index = true → capture_tree treeOf ap st use_index = Except.ok st.index) ∧
    (use_index = false → st.index ≠ treeOf st.head →
      capture_tree treeOf ap st use_index = Except.ok st.index) ∧
    (use_index = false → st.index = treeOf st.head →
      capture_tree treeOf ap st use_index =
        (match ap st.index st.workdir with
          | none => Except.error .workingDirConflicts
          | some t => Except.ok t)) := by
  refine ⟨fun h => ?_, fun h hne => ?_, fun h heq => ?_⟩
  · simp [capture_tree, h]
  · simp [capture_tree, h, hne]
  · simp only [capture_tree, h, heq]
    simp

/-- Witness for C8 (amended): the three branches at concrete states. -/
theorem c8_capture_tree_amended_witness :
    capture_tree (fun t => t) (fun i w => some (i + w)) ⟨1, 2, 3⟩ true = Except.ok 2 ∧
    capture_tree (fun t => t) (fun i w => some (i + w)) ⟨1, 2, 3⟩ false = Except.ok 2 ∧
    capture_tree (fun t => t) (fun i w => some (i + w)) ⟨2, 2, 3⟩ false = Except.ok 5 := by
  refine ⟨(c8_capture_tree_amended _ _ ⟨1, 2, 3⟩ true).1 rfl,
    (c8_capture_tree_amended _ _ ⟨1, 2, 3⟩ false).2.1 rfl (by decide), ?_⟩
  have h := (c8_capture_tree_amended (fun t => t) (fun i w => some (i + w))
    ⟨2, 2, 3⟩ false).2.2 rfl rfl
  exact h

/-! ## C10: navigation at the anchor boundary -/

/-- C10: `Path::parent` applied to `SeriesItem{name, Some(0)}` — and to
index `None` when the series has no patches — where the series' parent
rule is an anchor returns the "can't target anchor rule" error rather than
the unchanged path; asymmetrically, forward navigation at or past the top
with no dependents succeeds by returning the same path. -/
theorem c10_parent_anchor_vs_next_top (b : RuleBook) (name aname : String) (s : Series)
    (aid : Oid) (hs : b.rule name = some (.series s)) (hp : s.parent = aname)
    (ha : b.rule aname = some (.anchor aid)) :
    Path.parentPath b (.seriesItem name (some 0)) = .error (.cantTargetAnchor aname) ∧
    (s.patches = [] →
      Path.parentPath b (.seriesItem name none) = .error (.cantTargetAnchor aname)) ∧
    (b.find_rule_use name = [] →
      Path.next b (.seriesItem name none) = .ok (.seriesItem name none) ∧
      ∀ i, s.num_patches ≤ i + 1 →
        Path.next b (.seriesItem name (some i)) = .ok (.seriesItem name (some i))) := by
  refine ⟨?_, fun hemp => ?_, fun hdep => ⟨?_, fun i hi => ?_⟩⟩
  · simp [Path.parentPath, RuleBook.seriesOf, hs, hp, Path.from_rule, ha]
  · simp [Path.parentPath, RuleBook.seriesOf, hs, hp, Path.from_rule, ha,
      Series.has_patches, hemp]
  · simp [Path.next, hdep]
  · simp [Path.next, RuleBook.seriesOf, hs, hdep, hi]

/-- Witness for C10: the anchor-rooted rule book with an empty series
`feat` exercises every conjunct. -/
theorem c10_parent_anchor_vs_next_top_witness :
    Path.parentPath ⟨[("base", .anchor 100), ("feat", .series ⟨[], "base"⟩)]⟩
      (.seriesItem "feat" (some 0)) = .error (.cantTargetAnchor "base") ∧
    Path.parentPath ⟨[("base", .anchor 100), ("feat", .series ⟨[], "base"⟩)]⟩
      (.seriesItem "feat" none) = .error (.cantTargetAnchor "base") ∧
    Path.next ⟨[("base", .anchor 100), ("feat", .series ⟨[], "base"⟩)]⟩
      (.seriesItem "feat" none) = .ok (.seriesItem "feat" none) ∧
    Path.next ⟨[("base", .anchor 100), ("feat", .series ⟨[], "base"⟩)]⟩
      (.seriesItem "feat" (some 0)) = .ok (.seriesItem "feat" (some 0)) := by
  have h := c10_parent_anchor_vs_next_top
    ⟨[("base", .anchor 100), ("feat", .series ⟨[], "base"⟩)]⟩ "feat" "base" ⟨[], "base"⟩ 100
    (by decide) rfl (by decide)
  exact ⟨h.1, h.2.1 rfl, (h.2.2 (by decide)).1, (h.2.2 (by decide)).2 0 (by decide)⟩

/-! ## C7: navigation inverses -/

/-- Counterexample for C7: in a rule book with a single anchor-rooted
series `feat` (patches `[1, 2]`, no dependents, so no branch or merge
anywhere), the path at the top patch satisfies `next(p) = p`, but
`parent(next(p)) = SeriesItem{feat, Some(0)} ≠ p`, refuting
`p.next().parent() == p` away from any branch/merge boundary. -/
theorem c7_nav_inverse_counterexample :
    Path.next bookW (.seriesItem "feat" (some 1)) = .ok (.seriesItem "feat" (some 1)) ∧
    Path.parentPath bookW (.seriesItem "feat" (some 1)) = .ok (.seriesItem "feat" (some 0)) ∧
    (Path.seriesItem "feat" (some 0)) ≠ (Path.seriesItem "feat" (some 1)) := by
  exact ⟨rfl, rfl, by decide⟩

/-- C7 (amended): the navigation inverses hold at interior positions of a
series and across one-to-one series links, namely: `next` then `parent` is
the identity at `Some(i)` with `i + 1 < n` and at the top position of a
series with exactly one dependent; `parent` then `next` is the identity at
`Some(i)` with `0 < i < n` and at the bottom position of a series whose
parent is a series with exactly one dependent.  (They fail at a top with
zero dependents, at a bottom whose parent rule is an anchor, and at
branch/merge boundaries.) -/
theorem c7_nav_inverse_amended (b : RuleBook) (hnd : (b.rules.map Prod.fst).Nodup)
    (name : String) (s : Series) (hs : b.rule name = some (.series s)) :
    (∀ i, i + 1 < s.num_patches →
      (Path.next b (.seriesItem name (some i))).bind (Path.parentPath b) =
        .ok (.seriesItem name (some i))) ∧
    (∀ d, b.find_rule_use name = [d] →
      (Path.next b (.seriesItem name (checkedSub1 s.num_patches))).bind (Path.parentPath b) =
        .ok (.seriesItem name (checkedSub1 s.num_patches))) ∧
    (∀ i, 0 < i → i < s.num_patches →
      (Path.parentPath b (.seriesItem name (some i))).bind (Path.next b) =
        .ok (.seriesItem name (some i))) ∧
    (∀ q, b.rule s.parent = some (.series q) → b.find_rule_use s.parent = [name] →
      (Path.parentPath b
          (.seriesItem name (if s.has_patches then some 0 else none))).bind (Path.next b) =
        .ok (.seriesItem name (if s.has_patches then some 0 else none))) := by
  refine ⟨fun i hi => ?_, fun d hd => ?_, fun i h0 hi => ?_, fun q hq hone => ?_⟩
  · have hnext : Path.next b (.seriesItem name (some i)) = .ok (.seriesItem name (some (i + 1))) := by
      simp [Path.next, RuleBook.seriesOf, hs, Nat.not_le.mpr hi]
    rw [hnext]
    simp [Except.bind, Path.parentPath, RuleBook.seriesOf, hs]
  · -- the single dependent is a series whose parent is `name`
    have hmem : ∃ rd, (d, rd) ∈ b.rules ∧ rd.parentName = some name := by
      have : d ∈ b.find_rule_use name := by rw [hd]; simp
      unfold RuleBook.find_rule_use at this
      rcases List.mem_map.mp this with ⟨kv, hkv, hfst⟩
      exact ⟨kv.2, by
        have := List.mem_filter.mp hkv
        exact ⟨hfst ▸ (by simpa using this.1), by simpa using this.2⟩⟩
    rcases hmem with ⟨rd, hrdmem, hrdpar⟩
    rcases rd with sd | aid
    · have hsd : b.rule d = some (.series sd) := mem_alookup _ _ _ hnd hrdmem
      have hsdp : sd.parent = name := by
        simpa [Rule.parentName] using hrdpar
      have hnext : Path.next b (.seriesItem name (checkedSub1 s.num_patches)) =
          Path.from_rule b d .first := by
        cases hn : s.num_patches with
        | zero => simp [checkedSub1, Path.next, hd]
        | succ m => simp [checkedSub1, Path.next, RuleBook.seriesOf, hs, hn, hd]
      rw [hnext]
      have hfr : Path.from_rule b d .first =
          .ok (.seriesItem d (if sd.has_patches then some 0 else none)) := by
        simp [Path.from_rule, hsd]
      rw [hfr]
      by_cases hp : sd.has_patches
      · simp only [hp, if_true, Except.bind]
        simp [Path.parentPath, RuleBook.seriesOf, hsd, hsdp, Path.from_rule, hs]
      · simp only [hp, if_false, Except.bind]
        simp [Path.parentPath, RuleBook.seriesOf, hsd, hp, hsdp, Path.from_rule, hs]
    · exact absurd hrdpar (by simp [Rule.parentName])
  · cases i with
    | zero => exact absurd h0 (by simp)
    | succ j =>
      have hpar : Path.parentPath b (.seriesItem name (some (j + 1))) =
          .ok (.seriesItem name (some j)) := by
        simp [Path.parentPath]
      rw [hpar]
      simp [Except.bind, Path.next, RuleBook.seriesOf, hs, Nat.not_le.mpr hi]
  · have hpar : Path.parentPath b (.seriesItem name (if s.has_patches then some 0 else none)) =
        Path.from_rule b s.parent .last := by
      by_cases hp : s.has_patches
      · simp [hp, Path.parentPath, RuleBook.seriesOf, hs]
      · simp [hp, Path.parentPath, RuleBook.seriesOf, hs]
    rw [hpar]
    have hfr : Path.from_rule b s.parent .last =
        .ok (.seriesItem s.parent (checkedSub1 q.num_patches)) := by
      simp [Path.from_rule, hq]
    rw [hfr]
    have hback : Path.next b (.seriesItem s.parent (checkedSub1 q.num_patches)) =
        Path.from_rule b name .first := by
      cases hn : q.num_patches with
      | zero => simp [checkedSub1, Path.next, hone]
      | succ m => simp [checkedSub1, Path.next, RuleBook.seriesOf, hq, hn, hone]
    simp only [Except.bind]
    rw [hback]
    by_cases hp : s.has_patches
    · simp [Path.from_rule, hs, hp]
    · simp [Path.from_rule, hs, hp]

/-- Witness for C7 (amended): a chain anchor ← `feat` ← `top` exercises
the interior inverses on `feat` and the cross-link inverse between `feat`
and `top`. -/
theorem c7_nav_inverse_amended_witness :
    (Path.next ⟨[("base", .anchor 100), ("feat", .series ⟨[1, 2], "base"⟩),
        ("top", .series ⟨[5], "feat"⟩)]⟩ (.seriesItem "feat" (some 0))).bind
      (Path.parentPath ⟨[("base", .anchor 100), ("feat", .series ⟨[1, 2], "base"⟩),
        ("top", .series ⟨[5], "feat"⟩)]⟩) = .ok (.seriesItem "feat" (some 0)) ∧
    (Path.next ⟨[("base", .anchor 100), ("feat", .series ⟨[1, 2], "base"⟩),
        ("top", .series ⟨[5], "feat"⟩)]⟩ (.seriesItem "feat" (some 1))).bind
      (Path.parentPath ⟨[("base", .anchor 100), ("feat", .series ⟨[1, 2], "base"⟩),
        ("top", .series ⟨[5], "feat"⟩)]⟩) = .ok (.seriesItem "feat" (some 1)) ∧
    (Path.parentPath ⟨[("base", .anchor 100), ("feat", .series ⟨[1, 2], "base"⟩),
        ("top", .series ⟨[5], "feat"⟩)]⟩ (.seriesItem "top" (some 0))).bind
      (Path.next ⟨[("base", .anchor 100), ("feat", .series ⟨[1, 2], "base"⟩),
        ("top", .series ⟨[5], "feat"⟩)]⟩) = .ok (.seriesItem "top" (some 0)) := by
  have hf := c7_nav_inverse_amended
    ⟨[("base", .anchor 100), ("feat", .series ⟨[1, 2], "base"⟩),
      ("top", .series ⟨[5], "feat"⟩)]⟩ (by decide) "feat" ⟨[1, 2], "base"⟩ (by decide)
  have ht := c7_nav_inverse_amended
    ⟨[("base", .anchor 100), ("feat", .series ⟨[1, 2], "base"⟩),
      ("top", .series ⟨[5], "feat"⟩)]⟩ (by decide) "top" ⟨[5], "feat"⟩ (by decide)
  exact ⟨hf.1 0 (by decide), hf.2.1 "top" (by decide),
    ht.2.2.2 ⟨[1, 2], "base"⟩ (by decide) (by decide)⟩

/-! ## Build-engine lemmas -/

theorem buildFuel_succ (rp : Oid → Oid → Bool → Option Oid) (f : Nat) (st : BuildSt)
    (name : String) : buildFuel rp (f + 1) st name = buildStep rp (buildFuel rp f) st name := rfl

theorem cp_ok (rp : Oid → Oid → Bool → Option Oid) (c c' : GitOpCache) (t ch v : Oid)
    (sg hit : Bool) (hcoh : Coherent rp c)
    (h : GitOpCache.cherry_pick rp c t ch sg = (Except.ok v, c', hit)) :
    rp t ch sg = some v ∧ Coherent rp c' := by
  unfold GitOpCache.cherry_pick at h
  cases hl : alookup c.items (Action.cherryPick sg t ch) with
  | some w =>
    rw [hl] at h
    simp only [Prod.mk.injEq, Except.ok.injEq] at h
    obtain ⟨h1, h2, h3⟩ := h
    subst h1
    subst h2
    exact ⟨hcoh t ch sg w hl, hcoh⟩
  | none =>
    rw [hl] at h
    cases hr : rp t ch sg with
    | none => rw [hr] at h; simp at h
    | some w =>
      rw [hr] at h
      simp only [Prod.mk.injEq, Except.ok.injEq] at h
      obtain ⟨h1, h2, h3⟩ := h
      subst h1
      subst h2
      refine ⟨rfl, fun t2 ch2 sg2 v2 hv2 => ?_⟩
      by_cases hk : (Action.cherryPick sg2 t2 ch2) = (Action.cherryPick sg t ch)
      · rw [hk, alookup_aset_self] at hv2
        cases hv2
        cases hk
        exact hr
      · rw [alookup_aset_ne _ _ _ _ hk] at hv2
        exact hcoh t2 ch2 sg2 v2 hv2

theorem cp_conflict (rp : Oid → Oid → Bool → Option Oid) (c c' : GitOpCache) (t ch : Oid)
    (sg hit : Bool) (e : CherryPickConflict)
    (h : GitOpCache.cherry_pick rp c t ch sg = (Except.error e, c', hit)) :
    e = ⟨t, ch⟩ ∧ c' = c ∧ rp t ch sg = none := by
  unfold GitOpCache.cherry_pick at h
  cases hl : alookup c.items (Action.cherryPick sg t ch) with
  | some w => rw [hl] at h; simp at h
  | none =>
    rw [hl] at h
    cases hr : rp t ch sg with
    | none =>
      rw [hr] at h
      simp only [Prod.mk.injEq, Except.error.injEq] at h
      exact ⟨h.1.symm, h.2.1.symm, rfl⟩
    | some w => rw [hr] at h; simp at h

theorem RW_fix {rp : Oid → Oid → Bool → Option Oid} {a : Oid} {ps qs : List Oid}
    (h : RW rp a ps qs) (hfix : Fixpt rp) : RW rp a qs qs := by
  induction h with
  | nil a => exact RW.nil a
  | cons hstep _ ih => exact RW.cons (hfix _ _ _ _ hstep) ih

theorem loop_state (rp : Oid → Oid → Bool → Option Oid) (idx : Nat) (ps : List Oid)
    (count : Nat) (a : Oid) (st : BuildSt) (res : Except SeriesError Oid) (qs : List Oid)
    (st' : BuildSt) (h : cherryLoop rp idx ps count a st = (res, qs, st')) :
    st'.rules = st.rules ∧ st'.refs = st.refs := by
  induction ps generalizing idx count a st res qs st' with
  | nil =>
    simp only [cherryLoop] at h
    cases h
    exact ⟨rfl, rfl⟩
  | cons p rest ih =>
    cases count with
    | zero =>
      simp only [cherryLoop] at h
      cases h
      exact ⟨rfl, rfl⟩
    | succ k =>
      simp only [cherryLoop] at h
      cases hcp : GitOpCache.cherry_pick rp st.cache a p false with
      | mk res1 rest1 =>
        obtain ⟨c1, hit1⟩ := rest1
        cases res1 with
        | error conf =>
          rw [hcp] at h
          cases h
          exact ⟨rfl, rfl⟩
        | ok id =>
          rw [hcp] at h
          simp only at h
          cases hrec : cherryLoop rp (idx + 1) rest k id
              { st with cache := c1, misses := st.misses + (if hit1 then 0 else 1) } with
          | mk res2 rest2 =>
            obtain ⟨qs2, st2⟩ := rest2
            rw [hrec] at h
            cases h
            exact ih (idx + 1) k id
              { st with cache := c1, misses := st.misses + (if hit1 then 0 else 1) }
              res2 qs2 st2 hrec

theorem loop_ok (rp : Oid → Oid → Bool → Option Oid) (idx : Nat) (ps : List Oid)
    (count : Nat) (a : Oid) (st : BuildSt) (r : Oid) (qs : List Oid) (st' : BuildSt)
    (hcoh : Coherent rp st.cache)
    (h : cherryLoop rp idx ps count a st = (Except.ok r, qs, st')) :
    Coherent rp st'.cache ∧
    ∃ pre, RW rp a (ps.take count) pre ∧ qs = pre ++ ps.drop count ∧ r = pre.getLastD a := by
  induction ps generalizing idx count a st r qs st' with
  | nil =>
    simp only [cherryLoop] at h
    cases h
    exact ⟨hcoh, [], by rw [List.take_nil]; exact RW.nil a, by simp, rfl⟩
  | cons p rest ih =>
    cases count with
    | zero =>
      simp only [cherryLoop] at h
      cases h
      exact ⟨hcoh, [], by rw [List.take_zero]; exact RW.nil a, by simp, rfl⟩
    | succ k =>
      simp only [cherryLoop] at h
      cases hcp : GitOpCache.cherry_pick rp st.cache a p false with
      | mk res1 rest1 =>
        obtain ⟨c1, hit1⟩ := rest1
        cases res1 with
        | error conf => rw [hcp] at h; cases h
        | ok id =>
          rw [hcp] at h
          simp only at h
          cases hrec : cherryLoop rp (idx + 1) rest k id
              { st with cache := c1, misses := st.misses + (if hit1 then 0 else 1) } with
          | mk res2 rest2 =>
            obtain ⟨qs2, st2⟩ := rest2
            rw [hrec] at h
            cases h
            have hstep := cp_ok rp st.cache c1 a p id false hit1 hcoh hcp
            rcases ih (idx + 1) k id _ r qs2 st2 hstep.2 hrec with
              ⟨hcoh2, pre, hrw, hqs, hr⟩
            refine ⟨hcoh2, id :: pre, ?_, by simp [hqs], ?_⟩
            · rw [List.take_succ_cons]
              exact RW.cons hstep.1 hrw
            · rw [List.getLastD_cons]
              exact hr

theorem loop_replay (rp : Oid → Oid → Bool → Option Oid) (idx : Nat) (qs : List Oid)
    (count : Nat) (a : Oid) (st : BuildSt) (hrw : RW rp a qs qs)
    (hcoh : Coherent rp st.cache) (hc : qs.length ≤ count) :
    ∃ st', cherryLoop rp idx qs count a st = (Except.ok (qs.getLastD a), qs, st') ∧
      Coherent rp st'.cache ∧ st'.rules = st.rules ∧ st'.refs = st.refs := by
  induction qs generalizing idx count a st with
  | nil =>
    refine ⟨st, ?_, hcoh, rfl, rfl⟩
    cases count <;> simp [cherryLoop]
  | cons q rest ih =>
    cases hrw with
    | cons hstep hrest =>
      cases count with
      | zero => exact absurd hc (by simp)
      | succ k =>
        have hq : ∃ c' hit, GitOpCache.cherry_pick rp st.cache a q false =
            (Except.ok q, c', hit) ∧ Coherent rp c' := by
          unfold GitOpCache.cherry_pick
          cases hl : alookup st.cache.items (Action.cherryPick false a q) with
          | some w =>
            have := hcoh a q false w hl
            rw [hstep] at this
            cases this
            exact ⟨st.cache, true, rfl, hcoh⟩
          | none =>
            rw [hstep]
            refine ⟨_, false, rfl, ?_⟩
            intro t2 ch2 sg2 v2 hv2
            by_cases hk : (Action.cherryPick sg2 t2 ch2) = (Action.cherryPick false a q)
            · rw [hk, alookup_aset_self] at hv2
              cases hv2
              cases hk
              exact hstep
            · rw [alookup_aset_ne _ _ _ _ hk] at hv2
              exact hcoh t2 ch2 sg2 v2 hv2
        rcases hq with ⟨c', hit, hcp, hc'⟩
        rcases ih (idx + 1) k q
            { st with cache := c', misses := st.misses + (if hit then 0 else 1) } hrest hc'
            (by simp only [List.length_cons] at hc; omega) with
          ⟨st2, hloop2, hcoh2, hrules2, hrefs2⟩
        refine ⟨st2, ?_, hcoh2, hrules2, hrefs2⟩
        simp only [cherryLoop, hcp, hloop2, List.getLastD_cons]

theorem loop_conflict (rp : Oid → Oid → Bool → Option Oid) (idx : Nat) (ps : List Oid)
    (count : Nat) (a : Oid) (st : BuildSt) (e : SeriesError) (qs : List Oid) (st' : BuildSt)
    (h : cherryLoop rp idx ps count a st = (Except.error e, qs, st')) :
    ∃ j b p, e = .patchConflict (idx + j) b p ∧ j < count ∧ ps[j]? = some p ∧
      rp b p false = none ∧
      ∃ st2, cherryLoop rp idx ps j a st = (Except.ok b, qs, st2) := by
  induction ps generalizing idx count a st e qs st' with
  | nil => simp only [cherryLoop] at h; cases h
  | cons p rest ih =>
    cases count with
    | zero => simp only [cherryLoop] at h; cases h
    | succ k =>
      simp only [cherryLoop] at h
      cases hcp : GitOpCache.cherry_pick rp st.cache a p false with
      | mk res1 rest1 =>
        obtain ⟨c1, hit1⟩ := rest1
        cases res1 with
        | error conf =>
          rw [hcp] at h
          cases h
          rcases cp_conflict rp st.cache c1 a p false hit1 conf hcp with ⟨hconf, hc1, hrp⟩
          subst hconf
          refine ⟨0, a, p, by simp, by simp, by simp, hrp, st, by simp [cherryLoop]⟩
        | ok id =>
          rw [hcp] at h
          simp only at h
          cases hrec : cherryLoop rp (idx + 1) rest k id
              { st with cache := c1, misses := st.misses + (if hit1 then 0 else 1) } with
          | mk res2 rest2 =>
            obtain ⟨qs2, st2x⟩ := rest2
            rw [hrec] at h
            cases h
            rcases ih (idx + 1) k id _ e qs2 st2x hrec with
              ⟨j, b, pp, he, hj, hget, hrp, st2, hpart⟩
            have hidx : idx + 1 + j = idx + (j + 1) := by omega
            refine ⟨j + 1, b, pp, by rw [he, hidx], by omega, by simpa using hget, hrp,
              st2, ?_⟩
            simp only [cherryLoop, hcp, hpart]

/-! ## Dependency-chain lemmas -/

theorem ruleChain_succ_none (b : RuleBook) (f : Nat) (n : String)
    (hr : b.rule n = none) : ruleChain b (f + 1) n = none := by
  simp [ruleChain, hr]

theorem ruleChain_succ_anchor (b : RuleBook) (f : Nat) (n : String) (id : Oid)
    (hr : b.rule n = some (.anchor id)) : ruleChain b (f + 1) n = some [n] := by
  simp [ruleChain, hr]

theorem ruleChain_succ_series (b : RuleBook) (f : Nat) (n : String) (s : Series)
    (hr : b.rule n = some (.series s)) :
    ruleChain b (f + 1) n = (ruleChain b f s.parent).map (fun l => n :: l) := by
  simp [ruleChain, hr]

theorem chain_unique (b : RuleBook) (f1 f2 : Nat) (n : String) (L1 L2 : List String)
    (h1 : ruleChain b f1 n = some L1) (h2 : ruleChain b f2 n = some L2) : L1 = L2 := by
  induction f1 generalizing f2 n L1 L2 with
  | zero => simp [ruleChain] at h1
  | succ f ih =>
    cases f2 with
    | zero => simp [ruleChain] at h2
    | succ f2' =>
      cases hr : b.rule n with
      | none => rw [ruleChain_succ_none b f n hr] at h1; cases h1
      | some r =>
        cases r with
        | anchor id =>
          rw [ruleChain_succ_anchor b f n id hr] at h1
          rw [ruleChain_succ_anchor b f2' n id hr] at h2
          cases h1
          cases h2
          rfl
        | series s =>
          rw [ruleChain_succ_series b f n s hr] at h1
          rw [ruleChain_succ_series b f2' n s hr] at h2
          cases hc1 : ruleChain b f s.parent with
          | none => rw [hc1] at h1; cases h1
          | some L1' =>
            cases hc2 : ruleChain b f2' s.parent with
            | none => rw [hc2] at h2; cases h2
            | some L2' =>
              rw [hc1, Option.map_some'] at h1
              rw [hc2, Option.map_some'] at h2
              cases h1
              cases h2
              rw [ih f2' s.parent L1' L2' hc1 hc2]

theorem chain_drop (b : RuleBook) (f : Nat) (n : String) (L : List String)
    (h : ruleChain b f n = some L) :
    ∀ j, (hj : j < L.length) → ∃ f', f' ≤ f ∧ ruleChain b f' (L.get ⟨j, hj⟩) = some (L.drop j) := by
  induction f generalizing n L with
  | zero => simp [ruleChain] at h
  | succ f ih =>
    intro j hj
    cases hr : b.rule n with
    | none => rw [ruleChain_succ_none b f n hr] at h; cases h
    | some r =>
      cases r with
      | anchor id =>
        rw [ruleChain_succ_anchor b f n id hr] at h
        cases h
        cases j with
        | zero =>
          exact ⟨f + 1, le_refl _, by simpa using ruleChain_succ_anchor b f n id hr⟩
        | succ j' => simp at hj
      | series s =>
        rw [ruleChain_succ_series b f n s hr] at h
        cases hc : ruleChain b f s.parent with
        | none => rw [hc] at h; cases h
        | some L' =>
          rw [hc, Option.map_some'] at h
          cases h
          cases j with
          | zero =>
            refine ⟨f + 1, le_refl _, ?_⟩
            show ruleChain b (f + 1) n = some (n :: L')
            rw [ruleChain_succ_series b f n s hr, hc, Option.map_some']
          | succ j' =>
            have hj' : j' < L'.length := by simpa using hj
            rcases ih s.parent L' hc j' hj' with ⟨f', hf', hch⟩
            exact ⟨f', Nat.le_succ_of_le hf', by simpa using hch⟩

theorem chain_not_mem_parent (b : RuleBook) (f : Nat) (name : String) (s : Series)
    (L : List String) (hs : b.rule name = some (.series s))
    (hc : ruleChain b f s.parent = some L) : name ∉ L := by
  intro hmem
  rcases List.mem_iff_get.mp hmem with ⟨⟨j, hj⟩, hget⟩
  rcases chain_drop b f s.parent L hc j hj with ⟨f', _, hch⟩
  rw [hget] at hch
  have hname : ruleChain b (f + 1) name = some (name :: L) := by
    simp [ruleChain, hs, hc]
  have := chain_unique b (f + 1) f' name (name :: L) (L.drop j) hname hch
  have hlen : (name :: L).length = (L.drop j).length := by rw [this]
  simp only [List.length_cons, List.length_drop] at hlen
  omega

theorem chain_ok (rp : Oid → Oid → Bool → Option Oid) (f : Nat) (st : BuildSt) (name : String)
    (r : Oid) (st1 : BuildSt) (h : buildFuel rp f st name = (Except.ok r, st1)) :
    ∃ L, ruleChain st.rules f name = some L := by
  induction f generalizing st name r st1 with
  | zero => simp [buildFuel] at h
  | succ f ih =>
    rw [buildFuel_succ] at h
    unfold buildStep at h
    cases hr : st.rules.rule name with
    | none => rw [hr] at h; simp at h
    | some rule =>
      cases rule with
      | anchor id => exact ⟨[name], by simp [ruleChain, hr]⟩
      | series s =>
        unfold buildSeriesPart at h
        simp only [hr] at h
        cases hpar : buildFuel rp f st s.parent with
        | mk resp stp =>
          cases resp with
          | error e => rw [hpar] at h; simp at h
          | ok a =>
            rw [hpar] at h
            rcases ih st s.parent a stp hpar with ⟨Lp, hLp⟩
            exact ⟨name :: Lp, by simp [ruleChain, hr, hLp]⟩

/-- A successful build modifies rule entries and rule references only
along the built rule's dependency chain. -/
theorem build_frame (rp : Oid → Oid → Bool → Option Oid) (f : Nat) (st : BuildSt)
    (name : String) (r : Oid) (st1 : BuildSt) (L : List String)
    (h : buildFuel rp f st name = (Except.ok r, st1))
    (hL : ruleChain st.rules f name = some L) :
    ∀ k, k ∉ L → st1.rules.rule k = st.rules.rule k ∧ alookup st1.refs k = alookup st.refs k := by
  induction f generalizing st name r st1 L with
  | zero => simp [buildFuel] at h
  | succ f ih =>
    intro k hk
    rw [buildFuel_succ] at h
    unfold buildStep at h
    cases hr : st.rules.rule name with
    | none => rw [hr] at h; simp at h
    | some rule =>
      cases rule with
      | anchor id =>
        rw [ruleChain_succ_anchor _ f name id hr] at hL
        cases hL
        simp only [hr, Prod.mk.injEq] at h
        rw [← h.2]
        have hkn : k ≠ name := by
          intro hh
          exact hk (by simp [hh])
        exact ⟨rfl, alookup_aset_ne _ _ _ _ hkn⟩
      | series s =>
        rw [ruleChain_succ_series _ f name s hr] at hL
        cases hcp : ruleChain st.rules f s.parent with
        | none => rw [hcp] at hL; cases hL
        | some Lp =>
          rw [hcp, Option.map_some'] at hL
          cases hL
          have hkn : k ≠ name := fun hh => hk (by simp [hh])
          have hkp : k ∉ Lp := fun hh => hk (by simp [hh])
          unfold buildSeriesPart at h
          simp only [hr] at h
          cases hpar : buildFuel rp f st s.parent with
          | mk resp stp =>
            cases resp with
            | error e => rw [hpar] at h; simp at h
            | ok a =>
              simp only [hpar] at h
              cases hloop : cherryLoop rp 0 s.patches s.patches.length a stp with
              | mk resl rest =>
                obtain ⟨qs, stl⟩ := rest
                cases resl with
                | error e => simp only [hloop] at h; simp at h
                | ok rr =>
                  simp only [hloop, Prod.mk.injEq, Except.ok.injEq] at h
                  rw [← h.2]
                  have hframe := ih st s.parent a stp Lp hpar hcp k hkp
                  have hls := loop_state rp 0 s.patches s.patches.length a stp _ _ _ hloop
                  constructor
                  · show alookup (aset stl.rules.rules name _) k = _
                    rw [alookup_aset_ne _ _ _ _ hkn]
                    show alookup stl.rules.rules k = _
                    have : stl.rules = stp.rules := hls.1
                    rw [this]
                    exact hframe.1
                  · show alookup (aset stl.refs name rr) k = _
                    rw [alookup_aset_ne _ _ _ _ hkn, hls.2]
                    exact hframe.2

/-- Determinised replay: a successful build leaves the cache coherent, and
rebuilding the same rule from any coherent state that agrees with the
post-build state on the rule's dependency chain succeeds with the same
commit id and leaves the rule book completely unchanged.  `Fixpt`
captures content addressing (see its definition). -/
theorem build_idem_aux (rp : Oid → Oid → Bool → Option Oid) (hfix : Fixpt rp) :
    ∀ (f : Nat) (st : BuildSt) (name : String) (r : Oid) (st1 : BuildSt) (L : List String),
    Coherent rp st.cache →
    buildFuel rp f st name = (Except.ok r, st1) →
    ruleChain st.rules f name = some L →
    Coherent rp st1.cache ∧
    ∀ st', Coherent rp st'.cache → (∀ k, k ∈ L → st'.rules.rule k = st1.rules.rule k) →
      ∃ st2, buildFuel rp f st' name = (Except.ok r, st2) ∧ st2.rules = st'.rules ∧
        Coherent rp st2.cache := by
  intro f
  induction f with
  | zero =>
    intro st name r st1 L hcoh h hL
    simp [buildFuel] at h
  | succ f ih =>
    intro st name r st1 L hcoh h hL
    rw [buildFuel_succ] at h
    unfold buildStep at h
    cases hr : st.rules.rule name with
    | none => rw [hr] at h; simp at h
    | some rule =>
      cases rule with
      | anchor id =>
        rw [ruleChain_succ_anchor _ f name id hr] at hL
        cases hL
        simp only [hr, Prod.mk.injEq, Except.ok.injEq] at h
        obtain ⟨h1, h2⟩ := h
        refine ⟨by rw [← h2]; exact hcoh, ?_⟩
        intro st' hc' hagree
        have hname : st'.rules.rule name = some (.anchor id) := by
          rw [hagree name (by simp), ← h2]
          exact hr
        refine ⟨update_rule_ref st' name id, ?_, rfl, hc'⟩
        rw [buildFuel_succ]
        unfold buildStep
        simp only [hname]
        rw [h1]
      | series s =>
        rw [ruleChain_succ_series _ f name s hr] at hL
        cases hcp : ruleChain st.rules f s.parent with
        | none => rw [hcp] at hL; cases hL
        | some Lp =>
          rw [hcp, Option.map_some'] at hL
          cases hL
          unfold buildSeriesPart at h
          simp only [hr] at h
          cases hpar : buildFuel rp f st s.parent with
          | mk resp stp =>
            cases resp with
            | error e => rw [hpar] at h; simp at h
            | ok a =>
              simp only [hpar] at h
              cases hloop : cherryLoop rp 0 s.patches s.patches.length a stp with
              | mk resl rest =>
                obtain ⟨qs, stl⟩ := rest
                cases resl with
                | error e => simp only [hloop] at h; simp at h
                | ok rr =>
                  simp only [hloop, Prod.mk.injEq, Except.ok.injEq] at h
                  obtain ⟨h1, h2⟩ := h
                  obtain ⟨hcohp, hreplayp⟩ := ih st s.parent a stp Lp hcoh hpar hcp
                  obtain ⟨hcohl, pre, hrw, hqs, hrr⟩ :=
                    loop_ok rp 0 s.patches s.patches.length a stp rr qs stl hcohp hloop
                  rw [List.take_length] at hrw
                  rw [List.drop_length, List.append_nil] at hqs
                  rw [← hqs] at hrw
                  rw [← hqs] at hrr
                  have hc1 : Coherent rp st1.cache := by rw [← h2]; exact hcohl
                  refine ⟨hc1, ?_⟩
                  intro st' hc' hagree
                  have hnotin : name ∉ Lp := chain_not_mem_parent st.rules f name s Lp hr hcp
                  have hs1name : st1.rules.rule name = some (.series ⟨qs, s.parent⟩) := by
                    rw [← h2]
                    show alookup (aset stl.rules.rules name (Rule.series ⟨qs, s.parent⟩)) name = _
                    rw [alookup_aset_self]
                  have hname : st'.rules.rule name = some (.series ⟨qs, s.parent⟩) := by
                    rw [hagree name (by simp), hs1name]
                  have hlstate := loop_state rp 0 s.patches s.patches.length a stp _ _ _ hloop
                  have hagreep : ∀ k, k ∈ Lp → st'.rules.rule k = stp.rules.rule k := by
                    intro k hkLp
                    have hkn : k ≠ name := fun hh => hnotin (hh ▸ hkLp)
                    rw [hagree k (by simp [hkLp]), ← h2]
                    show alookup (aset stl.rules.rules name _) k = _
                    rw [alookup_aset_ne _ _ _ _ hkn]
                    show alookup stl.rules.rules k = _
                    rw [hlstate.1]
                    rfl
                  obtain ⟨stq, hq1, hq2, hq3⟩ := hreplayp st' hc' hagreep
                  have hrwqq : RW rp a qs qs := RW_fix hrw hfix
                  obtain ⟨stq2, hloop2, hcoh2, hrules2, hrefs2⟩ :=
                    loop_replay rp 0 qs qs.length a stq hrwqq hq3 (le_refl _)
                  have hfin : qs.getLastD a = r := by rw [← hrr]; exact h1
                  refine ⟨update_rule_ref
                    { stq2 with rules := stq2.rules.set_rule name (.series ⟨qs, s.parent⟩) }
                    name r, ?_, ?_, hcoh2⟩
                  · rw [buildFuel_succ]
                    unfold buildStep
                    simp only [hname]
                    unfold buildSeriesPart
                    simp only [hq1, hloop2, hfin]
                  · show RuleBook.set_rule stq2.rules name (Rule.series ⟨qs, s.parent⟩) = st'.rules
                    rw [hrules2, hq2]
                    show RuleBook.mk (aset st'.rules.rules name (Rule.series ⟨qs, s.parent⟩)) =
                      st'.rules
                    rw [aset_self _ _ _ hname]

/-! ## C1, C2, C3: the build engine -/

theorem rpW_fixpt : Fixpt rpW := by
  intro t ch sg v h
  unfold rpW at h ⊢
  simp only [Option.some.injEq] at h
  subst h
  by_cases hch : 1000 ≤ ch
  · simp [hch]
  · simp only [if_neg hch]
    by_cases ht : 1000 ≤ t * 1000 + ch
    · simp [ht]
    · simp only [if_neg ht, Option.some.injEq]
      have h0 : t = 0 := by
        by_contra hne
        exact ht (le_trans (Nat.le_mul_of_pos_left 1000 (Nat.pos_of_ne_zero hne))
          (Nat.le_add_right _ _))
      subst h0
      simp

theorem coherent_nil (rp : Oid → Oid → Bool → Option Oid) : Coherent rp ⟨[]⟩ := by
  intro t ch sg v h
  simp [alookup] at h

/-- Counterexample for C1: over `bookW` (anchor at 100, series `feat` with
patches `[1, 2]`) the first build from an empty cache yields 100001002
with 2 repository cherry-picks.  The second build yields the same Oid but
performs 2 further repository cherry-picks (misses 2 → 4): its first
lookup key, `CherryPick{base 100, cherry 100001}`, uses the rewritten
patch id and is absent from the cache, so it is not a hit.  Only the third
build is all hits (misses stay 4). -/
theorem c1_idempotent_build_counterexample :
    (buildFuel rpW 5 stW "feat").1 = Except.ok 100001002 ∧
    (buildFuel rpW 5 stW "feat").2.misses = 2 ∧
    alookup (buildFuel rpW 5 stW "feat").2.cache.items
      (Action.cherryPick false 100 100001) = none ∧
    (buildFuel rpW 5 (buildFuel rpW 5 stW "feat").2 "feat").1 = Except.ok 100001002 ∧
    (buildFuel rpW 5 (buildFuel rpW 5 stW "feat").2 "feat").2.misses = 4 ∧
    (buildFuel rpW 5 (buildFuel rpW 5 (buildFuel rpW 5 stW "feat").2 "feat").2 "feat").2.misses
      = 4 := by
  exact ⟨rfl, rfl, rfl, rfl, rfl, rfl⟩

/-- C1 (amended): for every rule book and rule whose build succeeds,
building the rule again with no intervening mutation yields the same Oid
and leaves the rule book unchanged — provided the cache is coherent with
the repository cherry-pick and cherry-picking an already-derived commit
onto its base reproduces it (content addressing).  However, the second
build does not run from cache hits alone: the in-place rewriting changes
the cache keys, so the second build's lookups miss and the repository
cherry-pick is re-invoked (see the counterexample); from the third build
on, the keys inserted by the second build are hits. -/
theorem c1_idempotent_build_amended (rp : Oid → Oid → Bool → Option Oid) (f : Nat)
    (st : BuildSt) (name : String) (r : Oid) (st1 : BuildSt) (hfix : Fixpt rp)
    (hcoh : Coherent rp st.cache) (h : buildFuel rp f st name = (Except.ok r, st1)) :
    ∃ st2, buildFuel rp f st1 name = (Except.ok r, st2) ∧ st2.rules = st1.rules := by
  obtain ⟨L, hL⟩ := chain_ok rp f st name r st1 h
  obtain ⟨hc1, hrep⟩ := build_idem_aux rp hfix f st name r st1 L hcoh h hL
  obtain ⟨st2, ha, hb, _⟩ := hrep st1 hc1 (fun k _ => rfl)
  exact ⟨st2, ha, hb⟩

/-- Witness for C1 (amended): rebuilding `feat` from the post-build state
`stW1` returns the same Oid and leaves the rule book unchanged. -/
theorem c1_idempotent_build_amended_witness :
    ∃ st2, buildFuel rpW 5 stW1 "feat" = (Except.ok 100001002, st2) ∧
      st2.rules = stW1.rules := by
  exact c1_idempotent_build_amended rpW 5 stW "feat" 100001002 stW1 rpW_fixpt
    (coherent_nil rpW) rfl

/-- Counterexample for C2: over `bookC` the conflicting build of `feat`
returns `PatchConflict{path = SeriesItem{feat, Some 1}, base = 100001,
patch = 999}`, but the rule book's stored series still has its original
patches `[1, 999]`: `patches[0]` has not been rewritten to 100001, because
`RuleBook::build` re-inserts the mutated clone only on success. -/
theorem c2_conflict_counterexample :
    (buildFuel rpC 5 stC "feat").1 =
      Except.error (.patchConflict (.seriesItem "feat" (some 1)) 100001 999) ∧
    (buildFuel rpC 5 stC "feat").2.rules.rule "feat" = some (.series ⟨[1, 999], "base"⟩) ∧
    (1 : Oid) ≠ 100001 := by
  exact ⟨rfl, rfl, by decide⟩

/-- C2 (amended): when the cherry-pick of patch `i` conflicts during a
rule-book build of a series, the build aborts with
`PatchConflict{path = SeriesItem{name, Some i}, base, patch}` where
`patch` is the original `patches[i]` and `base` the accumulated base (the
result of the successful partial build of the first `i` patches); no rule
reference is updated for that rule, and the rule book's stored series is
unchanged (it keeps its original patch ids — the in-place rewrites of
`patches[0..i]` live only in the mutated clone, which carries the partial
build's rewritten prefix and is discarded on failure). -/
theorem c2_conflict_abort (rp : Oid → Oid → Bool → Option Oid) (f : Nat) (st : BuildSt)
    (name : String) (s : Series) (a : Oid) (stp : BuildSt) (i : Nat) (b p : Oid)
    (qs : List Oid) (stl : BuildSt)
    (hs : st.rules.rule name = some (.series s))
    (hpar : buildFuel rp f st s.parent = (Except.ok a, stp))
    (hloop : cherryLoop rp 0 s.patches s.patches.length a stp =
      (Except.error (.patchConflict i b p), qs, stl)) :
    buildFuel rp (f + 1) st name =
      (Except.error (.patchConflict (.seriesItem name (some i)) b p), stl) ∧
    stl.rules.rule name = some (.series s) ∧
    alookup stl.refs name = alookup st.refs name ∧
    i < s.patches.length ∧ s.patches[i]? = some p ∧ rp b p false = none ∧
    ∃ st2, cherryLoop rp 0 s.patches i a stp = (Except.ok b, qs, st2) := by
  have hframe : stp.rules.rule name = st.rules.rule name ∧
      alookup stp.refs name = alookup st.refs name := by
    obtain ⟨Lp, hLp⟩ := chain_ok rp f st s.parent a stp hpar
    exact build_frame rp f st s.parent a stp Lp hpar hLp name
      (chain_not_mem_parent st.rules f name s Lp hs hLp)
  have hlstate := loop_state rp 0 s.patches s.patches.length a stp _ _ _ hloop
  obtain ⟨j, b', p', he, hj, hget, hrp, st2, hpart⟩ :=
    loop_conflict rp 0 s.patches s.patches.length a stp _ qs stl hloop
  injection he with hi hb hp
  subst hb
  subst hp
  have hij : i = j := by omega
  subst hij
  refine ⟨?_, ?_, ?_, by omega, hget, hrp, st2, hpart⟩
  · rw [buildFuel_succ]
    unfold buildStep buildSeriesPart
    simp only [hs, hpar, hloop, from_series_error]
  · rw [hlstate.1, hframe.1]
    exact hs
  · rw [hlstate.2]
    exact hframe.2

/-- Witness for C2 (amended): the conflicting build over `bookC` at its
concrete intermediate states. -/
theorem c2_conflict_abort_witness :
    buildFuel rpC 5 stC "feat" =
      (Except.error (.patchConflict (.seriesItem "feat" (some 1)) 100001 999), stlC) ∧
    stlC.rules.rule "feat" = some (.series ⟨[1, 999], "base"⟩) ∧
    alookup stlC.refs "feat" = alookup stC.refs "feat" ∧
    (1 : Nat) < 2 ∧ ([1, 999] : List Oid)[1]? = some 999 ∧ rpC 100001 999 false = none ∧
    ∃ st2, cherryLoop rpC 0 [1, 999] 1 100 stpC = (Except.ok 100001, [100001, 999], st2) := by
  have h := c2_conflict_abort rpC 4 stC "feat" ⟨[1, 999], "base"⟩ 100 stpC 1 100001 999
    [100001, 999] stlC rfl rfl rfl
  exact ⟨h.1, h.2.1, h.2.2.1, h.2.2.2.1, h.2.2.2.2.1, h.2.2.2.2.2.1, h.2.2.2.2.2.2⟩

/-- Counterexample for C3: for the series `feat` (patches `[1, 2]` on the
anchor at 100), `build_at(None)` yields the full build result 100001002,
not its parent's output 100 (= `build_partial(0)`). -/
theorem c3_build_at_none_counterexample :
    (Series.build_at rpW 5 ⟨[1, 2], "base"⟩ none stW).1 = Except.ok 100001002 ∧
    (Series.build_part rpW 5 ⟨[1, 2], "base"⟩ 0 stW).1 = Except.ok 100 ∧
    (100001002 : Oid) ≠ 100 := by
  exact ⟨rfl, rfl, by decide⟩

/-- C3 (amended): `build_at(None)` equals `build_partial(num_patches)` —
it applies all of the series' own patches (a `None` index denotes the
series as a whole), and it returns the parent rule's output exactly when
the series has no patches. -/
theorem c3_build_at_none_amended (rp : Oid → Oid → Bool → Option Oid) (f : Nat)
    (s : Series) (st : BuildSt) :
    Series.build_at rp f s none st = Series.build_part rp f s s.num_patches st ∧
    (∀ a st', s.patches = [] → buildFuel rp f st s.parent = (Except.ok a, st') →
      Series.build_at rp f s none st = (Except.ok a, s, st')) := by
  refine ⟨rfl, ?_⟩
  intro a st' hemp hpar
  obtain ⟨ps, par⟩ := s
  simp only at hemp
  subst hemp
  unfold Series.build_at Series.build_part buildSeriesPart
  simp only [hpar]
  simp [cherryLoop, Series.num_patches]

/-- Witness for C3 (amended): an empty series over the anchor at 100
builds at `None` to the parent's output. -/
theorem c3_build_at_none_amended_witness :
    Series.build_at rpW 5 ⟨[], "base"⟩ none stW =
      Series.build_part rpW 5 ⟨[], "base"⟩ 0 stW ∧
    Series.build_at rpW 5 ⟨[], "base"⟩ none stW = (Except.ok 100, ⟨[], "base"⟩, stpW) := by
  have h := c3_build_at_none_amended rpW 5 ⟨[], "base"⟩ stW
  exact ⟨h.1, h.2 100 stpW rfl rfl⟩

end Unstacked
